import Mathlib

/-!
Verification of the package-metadata module of `sage_bootstrap`
(`build/sage_bootstrap/package.py`).

Strings of the Python source are modelled as `List Char`.  Each Python
string primitive used by the code (`strip`, `split`, `partition`,
`readline`, `readlines`, `str.replace(old, new, 1)`, substring test) is
embedded as an executable Lean function, and the methods of the
`Package` class are translated on top of them.
-/

namespace SagePkg

abbrev Str := List Char

/-- Whitespace characters recognised by Python's `str.strip()` / `str.split()`. -/
def isSpace (c : Char) : Bool :=
  c = ' ' || c = '\t' || c = '\n' || c = '\r' || c = '\x0b' || c = '\x0c'

/-- Python `s.strip()`: remove leading and trailing whitespace. -/
def pyStrip (s : Str) : Str :=
  ((s.dropWhile isSpace).reverse.dropWhile isSpace).reverse

/-- Helper for `pySplit`, accumulating the current token in reverse. -/
def pySplitAux : Str → Str → List Str
  | [], acc => if acc = [] then [] else [acc.reverse]
  | c :: rest, acc =>
    if isSpace c then
      if acc = [] then pySplitAux rest [] else acc.reverse :: pySplitAux rest []
    else
      pySplitAux rest (c :: acc)

/-- Python `s.split()` with no separator: whitespace-tokenize, dropping empty tokens. -/
def pySplit (s : Str) : List Str := pySplitAux s []

/-- Python `f.readline()` on a file whose whole content is `content`:
the first line, including its trailing newline when present. -/
def readline (content : Str) : Str :=
  content.takeWhile (· ≠ '\n') ++ (if '\n' ∈ content then ['\n'] else [])

/-- First component of Python `s.partition('|')`: everything before the
first `'|'`, or the whole string when there is none. -/
def partitionBefore (s : Str) : Str := s.takeWhile (· ≠ '|')

/-- Third component of Python `s.partition('|')`: everything after the
first `'|'`, or the empty string when there is none. -/
def partitionAfter (s : Str) : Str :=
  if '|' ∈ s then (s.dropWhile (· ≠ '|')).tail else []

/-! ### Dependency files (`Package._init_dependencies` and the three accessors) -/

/-- Contents of the three dependency files of a package directory;
`none` models a missing file (`IOError` caught by `_init_dependencies`). -/
structure DepFiles where
  dependencies : Option Str
  dependencies_check : Option Str
  dependencies_order_only : Option Str

/-- The three private fields set by `Package._init_dependencies`. -/
structure DepState where
  deps : Str
  depsCheck : Str
  depsOrderOnly : Str
deriving DecidableEq

/-- Translation of `Package._init_dependencies`: each field reads only the
first line of its file; `dependencies` and `dependencies_check` are stripped,
`dependencies_order_only` is stored unstripped; a missing file yields `''`. -/
def initDependencies (f : DepFiles) : DepState where
  deps := match f.dependencies with
    | some c => pyStrip (readline c)
    | none => []
  depsCheck := match f.dependencies_check with
    | some c => pyStrip (readline c)
    | none => []
  depsOrderOnly := match f.dependencies_order_only with
    | some c => readline c
    | none => []

/-- Translation of the `Package.dependencies` property:
`self.__dependencies.partition('|')[0].strip().split()`. -/
def dependencies (st : DepState) : List Str :=
  pySplit (pyStrip (partitionBefore st.deps))

/-- Translation of the `Package.dependencies_order_only` property:
`self.__dependencies.partition('|')[2].strip().split()
 + self.__dependencies_order_only.strip().split()`. -/
def dependencies_order_only (st : DepState) : List Str :=
  pySplit (pyStrip (partitionAfter st.deps)) ++ pySplit (pyStrip st.depsOrderOnly)

/-- Translation of the `Package.dependencies_check` property exactly as
written at line 338 of `package.py`:
`return self.__dependencies_order_only.strip().split()` .
Note that it reads the order-only field, not `self.__dependencies_check`. -/
def dependencies_check (st : DepState) : List Str :=
  pySplit (pyStrip st.depsOrderOnly)

/-! ### Helper lemmas about `takeWhile` / `dropWhile` at the first stop character -/

theorem takeWhile_append_stop {p : Char → Bool} (x : Str) (c : Char) (y : Str)
    (hx : ∀ a ∈ x, p a = true) (hc : p c = false) :
    (x ++ c :: y).takeWhile p = x := by
  rw [List.takeWhile_append_of_pos hx]
  simp [List.takeWhile_cons, hc]

theorem dropWhile_append_stop {p : Char → Bool} (x : Str) (c : Char) (y : Str)
    (hx : ∀ a ∈ x, p a = true) (hc : p c = false) :
    (x ++ c :: y).dropWhile p = c :: y := by
  rw [List.dropWhile_append_of_pos hx]
  simp [List.dropWhile_cons, hc]

theorem takeWhile_eq_self_of_no_stop {p : Char → Bool} (s : Str)
    (hs : ∀ a ∈ s, p a = true) : s.takeWhile p = s := by
  induction s with
  | nil => rfl
  | cons a t ih =>
    rw [List.takeWhile_cons, if_pos (hs a (List.mem_cons_self a t))]
    exact congrArg (a :: ·) (ih fun b hb => hs b (List.mem_cons_of_mem a hb))

theorem readline_first_line (l r : Str) (hl : '\n' ∉ l) :
    readline (l ++ '\n' :: r) = l ++ ['\n'] := by
  unfold readline
  have h1 : (l ++ '\n' :: r).takeWhile (· ≠ '\n') = l :=
    takeWhile_append_stop l '\n' r
      (fun a ha => by
        simp only [decide_eq_true_eq]
        intro h
        exact hl (h ▸ ha)) (by simp)
  have h2 : '\n' ∈ l ++ '\n' :: r := List.mem_append_right l (List.mem_cons_self _ _)
  rw [h1, if_pos h2]

/-- C1: the `dependencies_check` accessor, evaluated on a package whose
check-dependencies file reads `foo` and whose order-only-dependencies file
reads `bar`, returns the tokens of the *order-only* file (`["bar"]`), not the
tokens of the check-dependencies file (`["foo"]`).  This contradicts the
claim (and the accessor's own docstring): line 338 of `package.py` returns
`self.__dependencies_order_only.strip().split()` while the loaded field
`self.__dependencies_check` is never used. -/
theorem c1_dependencies_check_reads_order_only_file :
    dependencies_check
        (initDependencies (DepFiles.mk none (some ("foo\n".data)) (some ("bar\n".data))))
      = ["bar".data] ∧ ["bar".data] ≠ ["foo".data] := by
  constructor
  · rfl
  · decide

/-- C5: splitting of the dependency line.  For a line `x ++ '|' ++ y` whose
part `x` is `'|'`-free, the ordinary dependencies are the tokens of `x` and
the order-only dependencies are the tokens of `y` followed by the tokens of
the separate order-only file; for a line without `'|'`, the ordinary
dependencies are the tokens of the whole line and the order-only
dependencies are exactly the file's tokens. -/
theorem c5_dependencies_partition :
    (∀ x y chk f, '|' ∉ x →
       dependencies (DepState.mk (x ++ '|' :: y) chk f) = pySplit (pyStrip x) ∧
       dependencies_order_only (DepState.mk (x ++ '|' :: y) chk f)
         = pySplit (pyStrip y) ++ pySplit (pyStrip f)) ∧
    (∀ s chk f, '|' ∉ s →
       dependencies (DepState.mk s chk f) = pySplit (pyStrip s) ∧
       dependencies_order_only (DepState.mk s chk f) = pySplit (pyStrip f)) := by
  constructor
  · intro x y chk f hx
    have hmem : ∀ a ∈ x, (decide (a ≠ '|')) = true := fun a ha => by
      simp only [decide_eq_true_eq]
      intro h
      exact hx (h ▸ ha)
    constructor
    · unfold dependencies partitionBefore
      rw [takeWhile_append_stop x '|' y hmem (by simp)]
    · unfold dependencies_order_only partitionAfter
      have hin : '|' ∈ x ++ '|' :: y := List.mem_append_right x (List.mem_cons_self _ _)
      rw [if_pos hin, dropWhile_append_stop x '|' y hmem (by simp)]
      rfl
  · intro s chk f hs
    have hmem : ∀ a ∈ s, (decide (a ≠ '|')) = true := fun a ha => by
      simp only [decide_eq_true_eq]
      intro h
      exact hs (h ▸ ha)
    constructor
    · unfold dependencies partitionBefore
      rw [takeWhile_eq_self_of_no_stop s hmem]
    · unfold dependencies_order_only partitionAfter
      rw [if_neg (by simpa using fun h => by simpa using hmem '|' h)]
      rfl

/-- C5 witness: the dependency line `"foo bar | baz"` with order-only file
content `"qux"` yields ordinary dependencies `["foo","bar"]` and order-only
dependencies `["baz","qux"]`. -/
theorem c5_witness :
    dependencies (DepState.mk ("foo bar ".data ++ '|' :: " baz".data) [] "qux".data)
      = ["foo".data, "bar".data] ∧
    dependencies_order_only
        (DepState.mk ("foo bar ".data ++ '|' :: " baz".data) [] "qux".data)
      = ["baz".data, "qux".data] := by
  have h := c5_dependencies_partition.1 "foo bar ".data " baz".data [] "qux".data (by decide)
  exact ⟨h.1.trans (by rfl), h.2.trans (by rfl)⟩

/-- C10: only the first line of each of the three dependency files is read:
replacing everything after the first newline by arbitrary content changes
none of the three dependency accessors. -/
theorem c10_only_first_line_read (l1 r1 l2 r2 l3 r3 : Str)
    (h1 : '\n' ∉ l1) (h2 : '\n' ∉ l2) (h3 : '\n' ∉ l3) :
    dependencies
        (initDependencies (DepFiles.mk (some (l1 ++ '\n' :: r1)) (some (l2 ++ '\n' :: r2))
          (some (l3 ++ '\n' :: r3))))
      = dependencies
        (initDependencies (DepFiles.mk (some (l1 ++ ['\n'])) (some (l2 ++ ['\n']))
          (some (l3 ++ ['\n'])))) ∧
    dependencies_check
        (initDependencies (DepFiles.mk (some (l1 ++ '\n' :: r1)) (some (l2 ++ '\n' :: r2))
          (some (l3 ++ '\n' :: r3))))
      = dependencies_check
        (initDependencies (DepFiles.mk (some (l1 ++ ['\n'])) (some (l2 ++ ['\n']))
          (some (l3 ++ ['\n'])))) ∧
    dependencies_order_only
        (initDependencies (DepFiles.mk (some (l1 ++ '\n' :: r1)) (some (l2 ++ '\n' :: r2))
          (some (l3 ++ '\n' :: r3))))
      = dependencies_order_only
        (initDependencies (DepFiles.mk (some (l1 ++ ['\n'])) (some (l2 ++ ['\n']))
          (some (l3 ++ ['\n'])))) := by
  have e1 : readline (l1 ++ '\n' :: r1) = readline (l1 ++ ['\n']) := by
    rw [readline_first_line l1 r1 h1, readline_first_line l1 [] h1]
  have e2 : readline (l2 ++ '\n' :: r2) = readline (l2 ++ ['\n']) := by
    rw [readline_first_line l2 r2 h2, readline_first_line l2 [] h2]
  have e3 : readline (l3 ++ '\n' :: r3) = readline (l3 ++ ['\n']) := by
    rw [readline_first_line l3 r3 h3, readline_first_line l3 [] h3]
  have est : initDependencies (DepFiles.mk (some (l1 ++ '\n' :: r1)) (some (l2 ++ '\n' :: r2))
      (some (l3 ++ '\n' :: r3)))
      = initDependencies (DepFiles.mk (some (l1 ++ ['\n'])) (some (l2 ++ ['\n']))
      (some (l3 ++ ['\n']))) := by
    show DepState.mk (pyStrip (readline (l1 ++ '\n' :: r1)))
        (pyStrip (readline (l2 ++ '\n' :: r2))) (readline (l3 ++ '\n' :: r3))
      = DepState.mk (pyStrip (readline (l1 ++ ['\n'])))
        (pyStrip (readline (l2 ++ ['\n']))) (readline (l3 ++ ['\n']))
    rw [e1, e2, e3]
  exact ⟨congrArg dependencies est, congrArg dependencies_check est,
    congrArg dependencies_order_only est⟩

/-- C10 witness: concrete second-line content is invisible to all three
accessors. -/
theorem c10_witness :
    dependencies
        (initDependencies (DepFiles.mk (some ("a b".data ++ '\n' :: "IGNORED".data))
          (some ("c".data ++ '\n' :: "X".data)) (some ("d".data ++ '\n' :: "Y".data))))
      = dependencies
        (initDependencies (DepFiles.mk (some ("a b".data ++ ['\n'])) (some ("c".data ++ ['\n']))
          (some ("d".data ++ ['\n'])))) := by
  exact (c10_only_first_line_read "a b".data "IGNORED".data "c".data "X".data
    "d".data "Y".data (by decide) (by decide) (by decide)).1

/-! ### Checksum file reader (`Package._init_checksum`) -/

/-- Characters allowed in the variable name of an assignment line,
the character class `[a-zA-Z0-9_]` of the regex in `_init_checksum`. -/
def isIdentChar (c : Char) : Bool := c.isAlphanum || c = '_'

/-- Translation of matching one line against the anchored regex
`(?P<var>[a-zA-Z0-9_]*)=(?P<value>.*)`: the (possibly empty) maximal run of
identifier characters must be followed by `'='`; the value is the rest of
the line up to the newline. -/
def matchAssignment (line : Str) : Option (Str × Str) :=
  let var := line.takeWhile isIdentChar
  match line.drop var.length with
  | '=' :: rest => some (var, rest.takeWhile (· ≠ '\n'))
  | _ => none

/-- Helper for `pyReadlines`, accumulating the current line in reverse. -/
def pyReadlinesAux : Str → Str → List Str
  | [], acc => if acc = [] then [] else [acc.reverse]
  | c :: rest, acc =>
    if c = '\n' then (acc.reverse ++ ['\n']) :: pyReadlinesAux rest []
    else pyReadlinesAux rest (c :: acc)

/-- Python `f.readlines()`: the content split after each newline,
newlines kept. -/
def pyReadlines (s : Str) : List Str := pyReadlinesAux s []

/-- Translation of the parsing loop of `Package._init_checksum`: scan the
lines, skip lines that do not match the assignment regex, store matching
lines in a dict where a later assignment to the same key wins. -/
def readKV (content : Str) : Str → Option Str :=
  (pyReadlines content).foldl
    (fun d line =>
      match matchAssignment line with
      | some (v, val) => fun k => if k = v then some val else d k
      | none => d)
    (fun _ => none)

/-- Translation of `Package._init_checksum`'s `try/except IOError`: a
missing `checksums.ini` yields an empty dict. -/
def initChecksum (file : Option Str) : Str → Option Str :=
  match file with
  | none => fun _ => none
  | some c => readKV c

/-- C8: the key-value checksum reader returns an empty mapping for a
missing file; on `"md5=aaa\nmd5=bbb"` the later assignment wins; and lines
matching no `<identifier>=<rest>` pattern (such as `"# comment"` and
`"justtext"`) are skipped without any effect on the result. -/
theorem c8_checksum_reader :
    (∀ k, initChecksum none k = none) ∧
    readKV ("md5=aaa".data ++ '\n' :: "md5=bbb".data) "md5".data = some "bbb".data ∧
    (∀ c k, readKV ("# comment".data ++ '\n' :: "justtext".data ++ '\n' :: c) k
      = readKV c k) := by
  refine ⟨fun k => rfl, rfl, fun c k => rfl⟩

/-! ### Version parser (`Package._init_version` and `VERSION_PATCHLEVEL`) -/

/-- Test whether the string starts with `.p<digit>`, the suffix shape
required by the regex `(?P<version>.*)\\.p(?P<patchlevel>[0-9]+)` at the
position where `.*` stops. -/
def dotPAt (t : Str) : Bool :=
  match t with
  | c1 :: c2 :: c3 :: _ => c1 == '.' && c2 == 'p' && c3.isDigit
  | _ => false

/-- Backtracking of the greedy `.*`: try the match position `i`, then
`i - 1`, ..., then `0`; the first (that is, largest) position where
`.p<digit>` follows is chosen. -/
def lastMatchFrom (s : Str) : Nat → Option Nat
  | 0 => if dotPAt (s.drop 0) then some 0 else none
  | i + 1 => if dotPAt (s.drop (i + 1)) then some (i + 1) else lastMatchFrom s i

/-- Position chosen by `re.match` for the group boundary: `.*` cannot cross
a newline, so backtracking starts at the end of the first line. -/
def lastMatch (s : Str) : Option Nat :=
  lastMatchFrom s (s.takeWhile (· ≠ '\n')).length

/-- Python `int()` on a string of decimal digits. -/
def digitsToNat (ds : Str) : Nat :=
  ds.foldl (fun a c => a * 10 + (c.toNat - '0'.toNat)) 0

/-- Translation of `Package._init_version`'s use of `VERSION_PATCHLEVEL`:
if the regex matches, the version is everything before the last `.p<digits>`
of the first line and the patchlevel is the following digit run parsed as an
integer; otherwise the whole string is the version and the patchlevel is
`-1`. -/
def parseVersion (s : Str) : Str × Int :=
  match lastMatch s with
  | none => (s, -1)
  | some i =>
    (s.take i, Int.ofNat (digitsToNat ((s.drop (i + 2)).takeWhile (fun c => c.isDigit))))

/-- Reformatting of a parsed version as `"{version}.p{patchlevel}"`
(for a non-negative patchlevel). -/
def formatVP (v : Str) (pl : Int) : Str :=
  v ++ '.' :: 'p' :: Nat.toDigits 10 pl.toNat

theorem dotPAt_false_of_head_ne (c : Char) (t : Str) (hc : ¬ c = '.') :
    dotPAt (c :: t) = false := by
  match t with
  | [] => rfl
  | [c2] => rfl
  | c2 :: c3 :: t3 =>
    simp only [dotPAt, Bool.and_eq_false_iff]
    exact Or.inl (Or.inl (by simpa using hc))

theorem dotPAt_false_of_digit_head (c : Char) (t : Str) (hc : c.isDigit = true) :
    dotPAt (c :: t) = false := by
  refine dotPAt_false_of_head_ne c t fun h => ?_
  rw [h] at hc
  exact absurd hc (by decide)

theorem lastMatchFrom_eq_of (s : Str) (m : Nat) (hm : dotPAt (s.drop m) = true) :
    ∀ k, m ≤ k → (∀ i, m < i → i ≤ k → dotPAt (s.drop i) = false) →
      lastMatchFrom s k = some m := by
  intro k
  induction k with
  | zero =>
    intro hk _
    have hm0 : m = 0 := Nat.le_zero.mp hk
    subst hm0
    simp only [lastMatchFrom]
    rw [if_pos (by simpa using hm)]
  | succ j ih =>
    intro hk habove
    by_cases h : m = j + 1
    · subst h
      simp [lastMatchFrom, hm]
    · have hfalse : dotPAt (s.drop (j + 1)) = false :=
        habove (j + 1) (by omega) (Nat.le_refl _)
      simp only [lastMatchFrom, hfalse, Bool.false_eq_true, if_false]
      exact ih (by omega) fun i h1 h2 => habove i h1 (by omega)

theorem lastMatchFrom_none_of (s : Str) (h : ∀ i, dotPAt (s.drop i) = false) :
    ∀ k, lastMatchFrom s k = none := by
  intro k
  induction k with
  | zero =>
    simp only [lastMatchFrom]
    rw [if_neg (by simpa using h 0)]
  | succ j ih =>
    simp only [lastMatchFrom]
    rw [if_neg (by simpa using h (j + 1)), ih]

/-- Greedy match position for a string of the junction shape
`v ++ ".p" ++ R`: when `v` is newline-free, `.p<digit>` holds at the
junction, and no later position matches, the regex boundary is exactly at
`v.length`. -/
theorem lastMatch_junction (v R : Str) (hv : '\n' ∉ v)
    (hhead : dotPAt ('.' :: 'p' :: R) = true)
    (habove : ∀ j, 0 < j → dotPAt (('.' :: 'p' :: R).drop j) = false) :
    lastMatch (v ++ '.' :: 'p' :: R) = some v.length := by
  have hvmem : ∀ a ∈ v, (decide (a ≠ '\n')) = true := fun a ha => by
    simp only [decide_eq_true_eq]
    intro h
    exact hv (h ▸ ha)
  have hdropv : (v ++ '.' :: 'p' :: R).drop v.length = '.' :: 'p' :: R :=
    List.drop_left v _
  have hdrop : ∀ i, v.length < i →
      (v ++ '.' :: 'p' :: R).drop i = ('.' :: 'p' :: R).drop (i - v.length) := by
    intro i hi
    rw [List.drop_append_eq_append_drop, List.drop_eq_nil_of_le (by omega), List.nil_append]
  have hL : v.length ≤ ((v ++ '.' :: 'p' :: R).takeWhile (· ≠ '\n')).length := by
    rw [List.takeWhile_append_of_pos hvmem]
    simp
  unfold lastMatch
  refine lastMatchFrom_eq_of _ v.length (by rw [hdropv]; exact hhead) _ hL ?_
  intro i h1 _
  rw [hdrop i h1]
  exact habove (i - v.length) (by omega)

/-- Value of `parseVersion` once the match position is known to be the
junction of `v ++ ".p" ++ R`. -/
theorem parseVersion_junction (v R : Str)
    (hlm : lastMatch (v ++ '.' :: 'p' :: R) = some v.length) :
    parseVersion (v ++ '.' :: 'p' :: R)
      = (v, Int.ofNat (digitsToNat (R.takeWhile (fun c => c.isDigit)))) := by
  unfold parseVersion
  rw [hlm]
  dsimp only
  have htake : (v ++ '.' :: 'p' :: R).take v.length = v := List.take_left v _
  have hdrop : (v ++ '.' :: 'p' :: R).drop (v.length + 2) = R := by
    rw [List.drop_append_eq_append_drop, List.drop_eq_nil_of_le (by omega), List.nil_append]
    have : v.length + 2 - v.length = 2 := by omega
    rw [this]
    rfl
  rw [htake, hdrop]

theorem digit_ne_newline {c : Char} (hc : c.isDigit = true) : (decide (c ≠ '\n')) = true := by
  simp only [decide_eq_true_eq]
  intro h
  rw [h] at hc
  exact absurd hc (by decide)

/-- Positions strictly after the junction inside `".p" ++ N ++ t` never
match `.p<digit>` when `N` is all digits and no position of `t` matches. -/
theorem habove_junction (N t : Str) (hNd : ∀ c ∈ N, c.isDigit = true)
    (ht : ∀ i, dotPAt (t.drop i) = false) :
    ∀ j, 0 < j → dotPAt (('.' :: 'p' :: (N ++ t)).drop j) = false := by
  intro j hj
  rcases j with _ | _ | n
  · exact absurd hj (lt_irrefl 0)
  · exact dotPAt_false_of_head_ne 'p' (N ++ t) (by decide)
  · show dotPAt ((N ++ t).drop n) = false
    rw [List.drop_append_eq_append_drop]
    cases hEq : N.drop n with
    | nil =>
      rw [List.nil_append]
      exact ht (n - N.length)
    | cons c cs =>
      have hcN : c ∈ N :=
        List.drop_subset n N (by rw [hEq]; exact List.mem_cons_self c cs)
      exact dotPAt_false_of_digit_head c _ (hNd c hcN)

/-- C6: round-trip of the version parser.  (a) For a string of the shape
`v ++ ".p" ++ N` with `v` newline-free and `N` a nonempty digit run whose
decimal value prints back as `N` itself (no leading zeros), parsing yields
`(v, int(N))` and reformatting as `"{version}.p{patchlevel}"` reproduces the
input exactly.  (b) For a string with no `.p<digit>` occurrence at any
position, the patchlevel parses as `-1` and the version is the input
unchanged. -/
theorem c6_version_roundtrip :
    (∀ v N, '\n' ∉ v → N ≠ [] → (∀ c ∈ N, c.isDigit = true) →
       Nat.toDigits 10 (digitsToNat N) = N →
       parseVersion (v ++ '.' :: 'p' :: N) = (v, Int.ofNat (digitsToNat N)) ∧
       formatVP v (Int.ofNat (digitsToNat N)) = v ++ '.' :: 'p' :: N) ∧
    (∀ s, (∀ i, i < s.length → dotPAt (s.drop i) = false) →
       parseVersion s = (s, -1)) := by
  constructor
  · intro v N hv hN hNd hcanon
    obtain ⟨d, N', hdN⟩ := List.exists_cons_of_ne_nil hN
    have hhead : dotPAt ('.' :: 'p' :: N) = true := by
      subst hdN
      have hd : d.isDigit = true := hNd d (List.mem_cons_self d N')
      simp [dotPAt, hd]
    have hN' : N = N ++ ([] : Str) := (List.append_nil N).symm
    have habove : ∀ j, 0 < j → dotPAt (('.' :: 'p' :: N).drop j) = false := by
      intro j hj
      rw [hN']
      exact habove_junction N [] hNd (fun i => by
        rw [List.drop_eq_nil_of_eq_nil rfl]
        rfl) j hj
    have hlm := lastMatch_junction v N hv hhead habove
    have hparse := parseVersion_junction v N hlm
    have htw : N.takeWhile (fun c => c.isDigit) = N :=
      takeWhile_eq_self_of_no_stop N hNd
    rw [htw] at hparse
    refine ⟨hparse, ?_⟩
    unfold formatVP
    have hnat : (Int.ofNat (digitsToNat N)).toNat = digitsToNat N := rfl
    rw [hnat, hcanon]
  · intro s hfalse
    have hall : ∀ i, dotPAt (s.drop i) = false := by
      intro i
      by_cases hi : i < s.length
      · exact hfalse i hi
      · rw [List.drop_eq_nil_of_le (by omega)]
        rfl
    unfold parseVersion lastMatch
    rw [lastMatchFrom_none_of s hall _]

/-- C6 witness: `"1.2.p5"` parses to version `"1.2"`, patchlevel `5`, and
reformats to `"1.2.p5"` exactly; `"1.2"` (no `.p<digits>`) parses to
patchlevel `-1` with the version unchanged. -/
theorem c6_witness :
    parseVersion ("1.2".data ++ '.' :: 'p' :: "5".data)
      = ("1.2".data, Int.ofNat (digitsToNat "5".data)) ∧
    formatVP "1.2".data (Int.ofNat (digitsToNat "5".data))
      = "1.2".data ++ '.' :: 'p' :: "5".data ∧
    parseVersion "1.2".data = ("1.2".data, -1) := by
  have h1 := c6_version_roundtrip.1 "1.2".data "5".data (by decide) (by decide)
    (by decide) (by decide)
  have h2 := c6_version_roundtrip.2 "1.2".data (by decide)
  exact ⟨h1.1, h1.2, h2⟩

/-- C6 counterexample: `"1.p01"` has the claimed shape `<version>.p<N>`
with `N = "01"` a digit sequence, but parse-then-reformat yields `"1.p1"`,
not the original string: `int("01")` is `1` and prints back without the
leading zero. -/
theorem c6_counterexample :
    parseVersion "1.p01".data = ("1".data, Int.ofNat 1) ∧
    formatVP "1".data (Int.ofNat 1) = "1.p1".data ∧
    "1.p1".data ≠ "1.p01".data := by
  refine ⟨by decide, by decide, by decide⟩

/-- C9: the patchlevel regex is not anchored at the end.  For an input
`v ++ ".p" ++ N ++ (c :: t)` whose trailing part `c :: t` starts with a
non-digit and itself contains no `.p<digit>` occurrence, parsing succeeds
anyway: the version is the text before the last matching `.p<digits>`, the
patchlevel is `int(N)`, the trailing text is silently discarded, and
reformatting therefore does not reproduce the input. -/
theorem c9_unanchored_regex (v N : Str) (c : Char) (t : Str)
    (hv : '\n' ∉ v) (hN : N ≠ []) (hNd : ∀ c2 ∈ N, c2.isDigit = true)
    (hc : c.isDigit = false)
    (ht : ∀ i, i < (c :: t).length → dotPAt ((c :: t).drop i) = false)
    (hcanon : Nat.toDigits 10 (digitsToNat N) = N) :
    parseVersion (v ++ '.' :: 'p' :: (N ++ c :: t))
      = (v, Int.ofNat (digitsToNat N)) ∧
    formatVP v (Int.ofNat (digitsToNat N)) ≠ v ++ '.' :: 'p' :: (N ++ c :: t) := by
  obtain ⟨d, N', hdN⟩ := List.exists_cons_of_ne_nil hN
  have htall : ∀ i, dotPAt ((c :: t).drop i) = false := by
    intro i
    by_cases hi : i < (c :: t).length
    · exact ht i hi
    · rw [List.drop_eq_nil_of_le (by omega)]
      rfl
  have hhead : dotPAt ('.' :: 'p' :: (N ++ c :: t)) = true := by
    subst hdN
    have hd : d.isDigit = true := hNd d (List.mem_cons_self d N')
    simp [dotPAt, hd]
  have hlm := lastMatch_junction v (N ++ c :: t) hv hhead
    (habove_junction N (c :: t) hNd htall)
  have hparse := parseVersion_junction v (N ++ c :: t) hlm
  have htw : (N ++ c :: t).takeWhile (fun c2 => c2.isDigit) = N :=
    takeWhile_append_stop N c t hNd hc
  rw [htw] at hparse
  refine ⟨hparse, ?_⟩
  intro hEq
  unfold formatVP at hEq
  have hnat : (Int.ofNat (digitsToNat N)).toNat = digitsToNat N := rfl
  rw [hnat, hcanon] at hEq
  have := congrArg List.length hEq
  simp only [List.length_append, List.length_cons] at this
  omega

/-- C9 witness: `"1.2.p3xyz"` parses to version `"1.2"` and patchlevel `3`,
and reformatting yields `"1.2.p3"`, not the original input. -/
theorem c9_witness :
    parseVersion ("1.2".data ++ '.' :: 'p' :: ("3".data ++ 'x' :: "yz".data))
      = ("1.2".data, Int.ofNat (digitsToNat "3".data)) ∧
    formatVP "1.2".data (Int.ofNat (digitsToNat "3".data))
      ≠ "1.2".data ++ '.' :: 'p' :: ("3".data ++ 'x' :: "yz".data) := by
  exact c9_unanchored_regex "1.2".data "3".data 'x' "yz".data (by decide) (by decide)
    (by decide) (by decide) (by decide) (by decide)

/-! ### Variable substitution engine (`Package._substitute_variables`) -/

/-- Bare spelling `VERSION`; also the marker string used for occurrence
counting, since every recognised spelling contains it. -/
def vVER : Str := "VERSION".data

/-- Bare spelling `VERSION_MAJOR`. -/
def vMAJ : Str := "VERSION_MAJOR".data

/-- Bare spelling `VERSION_MINOR`. -/
def vMIN : Str := "VERSION_MINOR".data

/-- Bare spelling `VERSION_MICRO`. -/
def vMIC : Str := "VERSION_MICRO".data

/-- Braced spelling `${VERSION}`. -/
def bVER : Str := "${VERSION}".data

/-- Braced spelling `${VERSION_MAJOR}`. -/
def bMAJ : Str := "${VERSION_MAJOR}".data

/-- Braced spelling `${VERSION_MINOR}`. -/
def bMIN : Str := "${VERSION_MINOR}".data

/-- Braced spelling `${VERSION_MICRO}`. -/
def bMIC : Str := "${VERSION_MICRO}".data

/-- Python `pattern.replace(old, value, 1)`: replace the leftmost
occurrence of `old`, if any. -/
def replaceFirst (old new : Str) : Str → Str
  | [] => []
  | c :: rest =>
    if old.isPrefixOf (c :: rest) then new ++ (c :: rest).drop old.length
    else c :: replaceFirst old new rest

/-- Translation of the `Package.version_major` property:
`self.version.split('.')[0]`; `none` models the `IndexError`. -/
def version_major (v : Str) : Option Str := (v.splitOn '.')[0]?

/-- Translation of the `Package.version_minor` property:
`self.version.split('.')[1]`. -/
def version_minor (v : Str) : Option Str := (v.splitOn '.')[1]?

/-- Translation of the `Package.version_micro` property:
`self.version.split('.')[2]`. -/
def version_micro (v : Str) : Option Str := (v.splitOn '.')[2]?

/-- Values available to `getattr(self, var.lower())` during substitution;
`none` models the exception raised by the corresponding accessor
(`AttributeError` when the version is absent, `IndexError` when it has too
few dot-separated components). -/
structure OValues where
  version : Option Str
  version_major : Option Str
  version_minor : Option Str
  version_micro : Option Str

/-- The value provider of a package whose `version` field has the given
content, with the three component accessors derived from it. -/
def mkOValues (version : Option Str) : OValues where
  version := version
  version_major := version.bind version_major
  version_minor := version.bind version_minor
  version_micro := version.bind version_micro

/-- Spellings in the order tested by `_substitute_variables_once`: the
`for` loop runs over `VERSION_MAJOR`, `VERSION_MINOR`, `VERSION_MICRO`,
`VERSION`, testing the braced form before the bare form of each. -/
def tokenTable (vals : OValues) : List (Str × Option Str) :=
  [(bMAJ, vals.version_major), (vMAJ, vals.version_major),
   (bMIN, vals.version_minor), (vMIN, vals.version_minor),
   (bMIC, vals.version_micro), (vMIC, vals.version_micro),
   (bVER, vals.version), (vVER, vals.version)]

/-- One pass of `_substitute_variables_once` over the remaining
candidates: the first spelling occurring in the pattern is replaced once
(fetching the value may raise, modelled by `none`); if none occurs, the
pattern is returned with the flag `False`. -/
def substOnceAux : List (Str × Option Str) → Str → Option (Str × Bool)
  | [], p => some (p, false)
  | (t, val) :: rest, p =>
    if t <:+: p then val.map (fun v => (replaceFirst t v p, true))
    else substOnceAux rest p

/-- Translation of `Package._substitute_variables_once`. -/
def substOnce (vals : OValues) (p : Str) : Option (Str × Bool) :=
  substOnceAux (tokenTable vals) p

/-- Outcome of running the substitution loop with a fuel bound:
`ok` is a normal return, `exn` a raised exception, and `fuelOut` means the
loop was still running when the fuel ran out. -/
inductive SubstRes where
  | ok (r : Str)
  | exn
  | fuelOut
deriving DecidableEq

/-- Translation of the `while not_done` loop of
`Package._substitute_variables`, with explicit fuel. -/
def substVars (vals : OValues) : Nat → Str → SubstRes
  | 0, _ => SubstRes.fuelOut
  | n + 1, p =>
    match substOnce vals p with
    | none => SubstRes.exn
    | some (q, true) => substVars vals n q
    | some (q, false) => SubstRes.ok q

/-- Outcome of `tarball_filename` / `tarball_upstream_url`: Python `None`,
a string, an exception, or a still-running substitution loop. -/
inductive TarballRes where
  | none
  | str (s : Str)
  | exn
  | fuelOut
deriving DecidableEq

/-- Translation of the `Package.tarball_filename` property: `None` when
the recorded pattern is `None` or falsy (the empty string), otherwise the
result of `_substitute_variables` on it. -/
def tarball_filename (vals : OValues) (pat : Option Str) (fuel : Nat) : TarballRes :=
  match pat with
  | Option.none => TarballRes.none
  | Option.some p =>
    if p = [] then TarballRes.none
    else
      match substVars vals fuel p with
      | SubstRes.ok r => TarballRes.str r
      | SubstRes.exn => TarballRes.exn
      | SubstRes.fuelOut => TarballRes.fuelOut

/-- Translation of the `Package.tarball_upstream_url` property, identical
to `tarball_filename` but reading the URL pattern. -/
def tarball_upstream_url (vals : OValues) (pat : Option Str) (fuel : Nat) : TarballRes :=
  match pat with
  | Option.none => TarballRes.none
  | Option.some p =>
    if p = [] then TarballRes.none
    else
      match substVars vals fuel p with
      | SubstRes.ok r => TarballRes.str r
      | SubstRes.exn => TarballRes.exn
      | SubstRes.fuelOut => TarballRes.fuelOut

/-! ### Occurrence counting for the termination argument -/

/-- Number of positions of `s` at which `p` occurs as a prefix of the
corresponding suffix. -/
def occCount (p : Str) : Str → Nat
  | [] => 0
  | c :: rest => (if p <+: (c :: rest) then 1 else 0) + occCount p rest

/-- Replacement values that can never create or destroy extra `VERSION`
markers: nonempty and sharing no character with `VERSION`. -/
@[reducible] def GoodVal (v : Str) : Prop := v ≠ [] ∧ ∀ c ∈ v, c ∉ vVER

/-- Properties of a token spelling needed for the occurrence-count
argument: it is at least as long as `VERSION`, contains the marker exactly
once, no proper nonempty suffix of the marker is a prefix of the spelling,
and no short nonempty suffix of the spelling is a prefix of the marker. -/
@[reducible] def SpellingOK (t : Str) : Prop :=
  7 ≤ t.length ∧ occCount vVER t = 1 ∧
  (∀ k, k < 7 → 0 < k → ¬ (vVER.drop k <+: t)) ∧
  (∀ j, j < t.length → t.length - j < 7 → ¬ (t.drop j <+: vVER))

theorem spellings_ok :
    SpellingOK bMAJ ∧ SpellingOK vMAJ ∧ SpellingOK bMIN ∧ SpellingOK vMIN ∧
    SpellingOK bMIC ∧ SpellingOK vMIC ∧ SpellingOK bVER ∧ SpellingOK vVER :=
  ⟨by decide, by decide, by decide, by decide, by decide, by decide, by decide, by decide⟩

theorem vVER_infix_spellings :
    vVER <:+: bMAJ ∧ vVER <:+: vMAJ ∧ vVER <:+: bMIN ∧ vVER <:+: vMIN ∧
    vVER <:+: bMIC ∧ vVER <:+: vMIC ∧ vVER <:+: bVER ∧ vVER <:+: vVER :=
  ⟨by decide, by decide, by decide, by decide, by decide, by decide, by decide, by decide⟩

theorem prefix_append_iff_short {p x y : Str} (h : p.length ≤ x.length) :
    p <+: x ++ y ↔ p <+: x := by
  constructor
  · intro hp
    have ht := List.prefix_iff_eq_take.mp hp
    rw [List.take_append_eq_append_take, Nat.sub_eq_zero_of_le h, List.take_zero,
      List.append_nil] at ht
    rw [ht]
    exact List.take_prefix p.length x
  · intro hp
    exact hp.trans (List.prefix_append x y)

theorem prefix_append_split {p x y : Str} (h : x.length < p.length) :
    p <+: x ++ y ↔ x <+: p ∧ p.drop x.length <+: y := by
  constructor
  · intro hp
    have ht := List.prefix_iff_eq_take.mp hp
    rw [List.take_append_eq_append_take, List.take_of_length_le (by omega)] at ht
    refine ⟨⟨y.take (p.length - x.length), ht.symm⟩, ?_⟩
    rw [ht, List.drop_left]
    exact List.take_prefix _ y
  · rintro ⟨⟨w, hw⟩, ⟨u, hu⟩⟩
    refine ⟨u, ?_⟩
    rw [← hu, ← hw, List.drop_left, List.append_assoc]

theorem occCount_pos_iff (p : Str) (hp : p ≠ []) (s : Str) :
    0 < occCount p s ↔ p <:+: s := by
  induction s with
  | nil =>
    simp [occCount, List.infix_nil, hp]
  | cons c rest ih =>
    rw [List.infix_cons_iff]
    simp only [occCount]
    by_cases h : p <+: c :: rest
    · simp [h]
    · simp [h, ih]

theorem occCount_eq_zero_of_disjoint (p : Str) (hp : p ≠ []) (v : Str)
    (h : ∀ c ∈ v, c ∉ p) : occCount p v = 0 := by
  induction v with
  | nil => rfl
  | cons c rest ih =>
    simp only [occCount]
    have h1 : ¬ (p <+: c :: rest) := by
      intro hpre
      obtain ⟨d, q, rfl⟩ := List.exists_cons_of_ne_nil hp
      rw [List.cons_prefix_cons] at hpre
      exact h c (List.mem_cons_self c rest) (hpre.1 ▸ List.mem_cons_self d q)
    rw [if_neg h1, ih (fun b hb => h b (List.mem_cons_of_mem c hb))]

theorem occCount_append (p : Str) (_hp : p ≠ []) (a z : Str)
    (h : ∀ x, x <:+ a → x ≠ [] → x.length < p.length →
      ¬ (x <+: p ∧ p.drop x.length <+: z)) :
    occCount p (a ++ z) = occCount p a + occCount p z := by
  induction a with
  | nil => simp [occCount]
  | cons c rest ih =>
    simp only [List.cons_append, occCount]
    have hx : (c :: rest) <:+ (c :: rest) := List.suffix_refl _
    have heq : (p <+: (c :: rest) ++ z) ↔ (p <+: c :: rest) := by
      by_cases hlen : p.length ≤ (c :: rest).length
      · exact prefix_append_iff_short hlen
      · refine iff_of_false ?_ ?_
        · intro hpre
          exact (h (c :: rest) hx (by simp) (by omega))
            ((prefix_append_split (by omega)).mp hpre)
        · intro hpre
          exact absurd (List.IsPrefix.length_le hpre) (by omega)
    have hih := ih fun x hsuf hne hlen =>
      h x (hsuf.trans (List.suffix_cons c rest)) hne hlen
    show (if p <+: c :: (rest ++ z) then 1 else 0) + occCount p (rest ++ z)
      = (if p <+: c :: rest then 1 else 0) + occCount p rest + occCount p z
    rw [show (c :: rest) ++ z = c :: (rest ++ z) from rfl] at heq
    rw [hih]
    by_cases hpre : p <+: c :: rest
    · rw [if_pos hpre, if_pos (heq.mpr hpre)]
      omega
    · rw [if_neg hpre, if_neg (fun hh => hpre (heq.mp hh))]
      omega

theorem replaceFirst_decomp (t v s : Str) (ht : t ≠ []) (h : t <:+: s) :
    ∃ a b, s = a ++ t ++ b ∧ replaceFirst t v s = a ++ v ++ b := by
  induction s with
  | nil => exact absurd (List.infix_nil.mp h) ht
  | cons c rest ih =>
    by_cases hpre : t.isPrefixOf (c :: rest) = true
    · have hp : t <+: c :: rest := List.isPrefixOf_iff_prefix.mp hpre
      obtain ⟨w, hw⟩ := hp
      refine ⟨[], w, by simp [← hw], ?_⟩
      show replaceFirst t v (c :: rest) = [] ++ v ++ w
      simp only [replaceFirst]
      rw [if_pos hpre, ← hw, List.drop_left, List.nil_append]
    · have hp : ¬ (t <+: c :: rest) := fun hh => hpre (List.isPrefixOf_iff_prefix.mpr hh)
      have hrest : t <:+: rest := (List.infix_cons_iff.mp h).resolve_left hp
      obtain ⟨a, b, h1, h2⟩ := ih hrest
      refine ⟨c :: a, b, by simp [h1], ?_⟩
      simp only [replaceFirst]
      rw [if_neg hpre, h2]
      simp

/-- Core counting step: replacing one occurrence of a well-behaved token
spelling by a `GoodVal` value decreases the number of `VERSION` markers by
exactly one. -/
theorem occCount_replaceFirst (t v p : Str) (hT : SpellingOK t) (hv : GoodVal v)
    (hinf : t <:+: p) :
    occCount vVER (replaceFirst t v p) + 1 = occCount vVER p := by
  obtain ⟨hlen, hocc, hF2, hF3⟩ := hT
  obtain ⟨hvne, hvd⟩ := hv
  have ht : t ≠ [] := by
    intro hh
    rw [hh] at hlen
    simp at hlen
  have hvn : vVER ≠ [] := by decide
  have hvnlen : vVER.length = 7 := by decide
  obtain ⟨a, b, hs, hr⟩ := replaceFirst_decomp t v p ht hinf
  have h1 : occCount vVER (a ++ (t ++ b)) = occCount vVER a + occCount vVER (t ++ b) := by
    apply occCount_append vVER hvn
    rintro x _ hne hxlen ⟨_, hdro⟩
    have hxpos : 0 < x.length := List.length_pos.mpr hne
    have hdlen : (vVER.drop x.length).length ≤ t.length := by
      rw [List.length_drop]
      omega
    exact hF2 x.length (by omega) hxpos ((prefix_append_iff_short hdlen).mp hdro)
  have h2 : occCount vVER (t ++ b) = 1 + occCount vVER b := by
    rw [occCount_append vVER hvn t b ?_, hocc]
    rintro x hsuf hne hxlen ⟨hxp, _⟩
    have hxle : x.length ≤ t.length := List.IsSuffix.length_le hsuf
    have hxpos : 0 < x.length := List.length_pos.mpr hne
    have hxd : x = t.drop (t.length - x.length) := List.suffix_iff_eq_drop.mp hsuf
    exact hF3 (t.length - x.length) (by omega) (by omega) (hxd ▸ hxp)
  have h3 : occCount vVER (a ++ (v ++ b)) = occCount vVER a + occCount vVER (v ++ b) := by
    apply occCount_append vVER hvn
    rintro x _ hne hxlen ⟨_, hdro⟩
    obtain ⟨vh, vt, hveq⟩ := List.exists_cons_of_ne_nil hvne
    have hdne : vVER.drop x.length ≠ [] := by
      have : (vVER.drop x.length).length = 7 - x.length := by
        rw [List.length_drop, hvnlen]
      intro hh
      rw [hh] at this
      simp at this
      omega
    obtain ⟨dh, dt, hdeq⟩ := List.exists_cons_of_ne_nil hdne
    have hmemd : dh ∈ vVER := List.drop_subset x.length vVER
      (by rw [hdeq]; exact List.mem_cons_self _ _)
    rw [hdeq, hveq, List.cons_append, List.cons_prefix_cons] at hdro
    exact hvd vh (by rw [hveq]; exact List.mem_cons_self _ _) (hdro.1 ▸ hmemd)
  have h4 : occCount vVER (v ++ b) = occCount vVER b := by
    rw [occCount_append vVER hvn v b ?_,
      occCount_eq_zero_of_disjoint vVER hvn v hvd, Nat.zero_add]
    rintro x hsuf hne _ ⟨hxp, _⟩
    obtain ⟨xh, xt, hxeq⟩ := List.exists_cons_of_ne_nil hne
    have hxv : xh ∈ v := hsuf.subset (by rw [hxeq]; exact List.mem_cons_self _ _)
    have hxver : xh ∈ vVER := hxp.subset (by rw [hxeq]; exact List.mem_cons_self _ _)
    exact hvd xh hxv hxver
  rw [hr, hs, List.append_assoc, List.append_assoc, h1, h2, h3, h4]
  omega

/-! ### Behaviour of one substitution pass -/

theorem substOnceAux_of_none (table : List (Str × Option Str)) (p : Str)
    (h : ∀ e ∈ table, ¬ e.1 <:+: p) : substOnceAux table p = some (p, false) := by
  induction table with
  | nil => rfl
  | cons e rest ih =>
    obtain ⟨t, val⟩ := e
    simp only [substOnceAux]
    rw [if_neg (h (t, val) (List.mem_cons_self _ _))]
    exact ih fun e2 he2 => h e2 (List.mem_cons_of_mem _ he2)

theorem substOnceAux_false_result (table : List (Str × Option Str)) (p q : Str)
    (h : substOnceAux table p = some (q, false)) :
    q = p ∧ ∀ e ∈ table, ¬ e.1 <:+: p := by
  induction table with
  | nil =>
    have h2 : (p, false) = (q, (false : Bool)) := Option.some.inj h
    exact ⟨(congrArg Prod.fst h2).symm, by simp⟩
  | cons e rest ih =>
    obtain ⟨t, val⟩ := e
    simp only [substOnceAux] at h
    by_cases hinf : t <:+: p
    · rw [if_pos hinf] at h
      cases val with
      | none => exact absurd h (by simp)
      | some v => exact absurd (Option.some.inj h) (by simp)
    · rw [if_neg hinf] at h
      obtain ⟨hq, hall⟩ := ih h
      refine ⟨hq, ?_⟩
      intro e2 he2
      rcases List.mem_cons.mp he2 with rfl | he2
      · exact hinf
      · exact hall e2 he2

theorem substOnceAux_true_result (table : List (Str × Option Str)) (p q : Str)
    (h : substOnceAux table p = some (q, true)) :
    ∃ t val v, (t, val) ∈ table ∧ val = some v ∧ t <:+: p ∧ q = replaceFirst t v p := by
  induction table with
  | nil =>
    exact absurd (Option.some.inj h) (by simp)
  | cons e rest ih =>
    obtain ⟨t, val⟩ := e
    simp only [substOnceAux] at h
    by_cases hinf : t <:+: p
    · rw [if_pos hinf] at h
      cases val with
      | none => exact absurd h (by simp)
      | some v =>
        have := Option.some.inj h
        refine ⟨t, some v, v, List.mem_cons_self _ _, rfl, hinf, ?_⟩
        exact ((Prod.mk.injEq _ _ _ _ ▸ this).1).symm
    · rw [if_neg hinf] at h
      obtain ⟨t2, val2, v2, hmem, hval, hinf2, hq⟩ := ih h
      exact ⟨t2, val2, v2, List.mem_cons_of_mem _ hmem, hval, hinf2, hq⟩

theorem substOnceAux_ne_none (table : List (Str × Option Str)) (p : Str)
    (h : ∀ e ∈ table, e.2 ≠ none) : substOnceAux table p ≠ none := by
  induction table with
  | nil => simp [substOnceAux]
  | cons e rest ih =>
    obtain ⟨t, val⟩ := e
    simp only [substOnceAux]
    by_cases hinf : t <:+: p
    · rw [if_pos hinf]
      cases val with
      | none => exact absurd rfl (h (t, none) (List.mem_cons_self _ _))
      | some v => simp
    · rw [if_neg hinf]
      exact ih fun e2 he2 => h e2 (List.mem_cons_of_mem _ he2)

/-- All four values present and well-behaved. -/
def GoodVals (vals : OValues) : Prop :=
  (∃ v, vals.version = some v ∧ GoodVal v) ∧
  (∃ v, vals.version_major = some v ∧ GoodVal v) ∧
  (∃ v, vals.version_minor = some v ∧ GoodVal v) ∧
  (∃ v, vals.version_micro = some v ∧ GoodVal v)

theorem tokenTable_spelling (vals : OValues) :
    ∀ e ∈ tokenTable vals, SpellingOK e.1 := by
  intro e he
  have h := spellings_ok
  simp only [tokenTable, List.mem_cons, List.not_mem_nil, or_false] at he
  rcases he with rfl | rfl | rfl | rfl | rfl | rfl | rfl | rfl
  · exact h.1
  · exact h.2.1
  · exact h.2.2.1
  · exact h.2.2.2.1
  · exact h.2.2.2.2.1
  · exact h.2.2.2.2.2.1
  · exact h.2.2.2.2.2.2.1
  · exact h.2.2.2.2.2.2.2

theorem tokenTable_contains_marker (vals : OValues) :
    ∀ e ∈ tokenTable vals, vVER <:+: e.1 := by
  intro e he
  have h := vVER_infix_spellings
  simp only [tokenTable, List.mem_cons, List.not_mem_nil, or_false] at he
  rcases he with rfl | rfl | rfl | rfl | rfl | rfl | rfl | rfl
  · exact h.1
  · exact h.2.1
  · exact h.2.2.1
  · exact h.2.2.2.1
  · exact h.2.2.2.2.1
  · exact h.2.2.2.2.2.1
  · exact h.2.2.2.2.2.2.1
  · exact h.2.2.2.2.2.2.2

theorem tokenTable_good (vals : OValues) (hg : GoodVals vals) :
    ∀ e ∈ tokenTable vals, ∀ v, e.2 = some v → GoodVal v := by
  obtain ⟨⟨v0, hv0, hg0⟩, ⟨v1, hv1, hg1⟩, ⟨v2, hv2, hg2⟩, ⟨v3, hv3, hg3⟩⟩ := hg
  intro e he v hval
  simp only [tokenTable, List.mem_cons, List.not_mem_nil, or_false] at he
  rcases he with rfl | rfl | rfl | rfl | rfl | rfl | rfl | rfl <;>
    simp only at hval
  · rw [hv1] at hval
    exact (Option.some.inj hval) ▸ hg1
  · rw [hv1] at hval
    exact (Option.some.inj hval) ▸ hg1
  · rw [hv2] at hval
    exact (Option.some.inj hval) ▸ hg2
  · rw [hv2] at hval
    exact (Option.some.inj hval) ▸ hg2
  · rw [hv3] at hval
    exact (Option.some.inj hval) ▸ hg3
  · rw [hv3] at hval
    exact (Option.some.inj hval) ▸ hg3
  · rw [hv0] at hval
    exact (Option.some.inj hval) ▸ hg0
  · rw [hv0] at hval
    exact (Option.some.inj hval) ▸ hg0

theorem tokenTable_ne_none (vals : OValues) (hg : GoodVals vals) :
    ∀ e ∈ tokenTable vals, e.2 ≠ none := by
  obtain ⟨⟨v0, hv0, _⟩, ⟨v1, hv1, _⟩, ⟨v2, hv2, _⟩, ⟨v3, hv3, _⟩⟩ := hg
  intro e he
  simp only [tokenTable, List.mem_cons, List.not_mem_nil, or_false] at he
  rcases he with rfl | rfl | rfl | rfl | rfl | rfl | rfl | rfl <;>
    simp only [hv0, hv1, hv2, hv3] <;> simp

theorem substOnce_of_occ_zero (vals : OValues) (p : Str)
    (h : occCount vVER p = 0) : substOnce vals p = some (p, false) := by
  apply substOnceAux_of_none
  intro e he hinf
  have hmark : vVER <:+: p := (tokenTable_contains_marker vals e he).trans hinf
  have := (occCount_pos_iff vVER (by decide) p).mpr hmark
  omega

theorem substOnce_true_occ (vals : OValues) (hg : GoodVals vals) (p q : Str)
    (h : substOnce vals p = some (q, true)) :
    occCount vVER q + 1 = occCount vVER p := by
  obtain ⟨t, val, v, hmem, hval, hinf, rfl⟩ := substOnceAux_true_result _ _ _ h
  exact occCount_replaceFirst t v p (tokenTable_spelling vals _ hmem)
    (tokenTable_good vals hg _ hmem v hval) hinf

/-- Termination of the substitution loop for well-behaved values, with an
explicit bound: one more pass than the number of `VERSION` markers. -/
theorem substVars_ok_of_good (vals : OValues) (hg : GoodVals vals) :
    ∀ n p, occCount vVER p ≤ n → ∃ r, substVars vals (n + 1) p = SubstRes.ok r := by
  intro n
  induction n with
  | zero =>
    intro p hocc
    refine ⟨p, ?_⟩
    simp only [substVars, substOnce_of_occ_zero vals p (by omega)]
  | succ m ih =>
    intro p hocc
    cases hE : substOnce vals p with
    | none =>
      exact absurd hE (substOnceAux_ne_none _ p (tokenTable_ne_none vals hg))
    | some pr =>
      obtain ⟨q, flag⟩ := pr
      cases flag with
      | false =>
        exact ⟨q, by simp only [substVars, hE]⟩
      | true =>
        have hocc2 := substOnce_true_occ vals hg p q hE
        obtain ⟨r, hr⟩ := ih q (by omega)
        refine ⟨r, ?_⟩
        simp only [substVars, hE]
        exact hr

/-- Value provider derived from the version string `VERSION` itself, a
legal assignment of string values on which the loop never terminates. -/
def badVals : OValues := mkOValues (some vVER)

theorem badVals_loops : ∀ n, substVars badVals n vVER = SubstRes.fuelOut := by
  intro n
  induction n with
  | zero => rfl
  | succ m ih =>
    have hstep : substOnce badVals vVER = some (vVER, true) := by decide
    simp only [substVars, hstep]
    exact ih

/-- C2 counterexample: the claim quantifies over every assignment of string
values to the four variables, but for the value assignment derived from the
version string `"VERSION"` and the template `"VERSION"`, the loop never
returns: each pass replaces the single occurrence by itself and rescans. -/
theorem c2_counterexample :
    ¬ ∃ n r, substVars badVals n vVER = SubstRes.ok r := by
  rintro ⟨n, r, h⟩
  rw [badVals_loops n] at h
  exact SubstRes.noConfusion h

/-- C2 (amended): the one-occurrence-at-a-time substitution loop terminates
for every template provided each of the four values is a nonempty string
sharing no character with `VERSION` (as every ordinary dotted numeric
version is); it returns normally after at most one pass more than the
number of `VERSION` markers in the template. -/
theorem c2_substitution_terminates (w va vb vc : Str) (p : Str)
    (hw : GoodVal w) (ha : GoodVal va) (hb : GoodVal vb) (hc : GoodVal vc) :
    ∃ r, substVars (OValues.mk (some w) (some va) (some vb) (some vc))
      (occCount vVER p + 1) p = SubstRes.ok r := by
  apply substVars_ok_of_good
  · exact ⟨⟨w, rfl, hw⟩, ⟨va, rfl, ha⟩, ⟨vb, rfl, hb⟩, ⟨vc, rfl, hc⟩⟩
  · exact Nat.le_refl _

/-- C2 witness: with values derived from `"3.11.2"` the loop on the
template `"pkg-${VERSION_MAJOR}.tar"` terminates. -/
theorem c2_witness :
    GoodVal "3.11.2".data ∧ GoodVal "3".data ∧ GoodVal "11".data ∧ GoodVal "2".data ∧
    ∃ r, substVars
        (OValues.mk (some "3.11.2".data) (some "3".data) (some "11".data) (some "2".data))
        (occCount vVER "pkg-${VERSION_MAJOR}.tar".data + 1)
        "pkg-${VERSION_MAJOR}.tar".data = SubstRes.ok r := by
  exact ⟨by decide, by decide, by decide, by decide,
    c2_substitution_terminates "3.11.2".data "3".data "11".data "2".data
      "pkg-${VERSION_MAJOR}.tar".data (by decide) (by decide) (by decide) (by decide)⟩

theorem substVars_ok_no_token (vals : OValues) :
    ∀ n p r, substVars vals n p = SubstRes.ok r → ∀ e ∈ tokenTable vals, ¬ e.1 <:+: r := by
  intro n
  induction n with
  | zero =>
    intro p r h
    exact absurd h (by simp [substVars])
  | succ m ih =>
    intro p r h
    cases hE : substOnce vals p with
    | none =>
      simp only [substVars, hE] at h
      exact absurd h (by simp)
    | some pr =>
      obtain ⟨q, flag⟩ := pr
      cases flag with
      | false =>
        simp only [substVars, hE, SubstRes.ok.injEq] at h
        obtain ⟨hq, hall⟩ := substOnceAux_false_result _ p q hE
        intro e he
        rw [← h, hq]
        exact hall e he
      | true =>
        simp only [substVars, hE] at h
        exact ih q r h

/-- C3: whenever the substitution loop returns normally, no spelling of any
of the four variables, braced or bare, remains in the result (every
occurrence was replaced); and on the template
`"pkg-${VERSION_MAJOR}.${VERSION_MINOR}.tar.gz"` with values derived from
version `"3.11.2"` the loop returns exactly `"pkg-3.11.tar.gz"`. -/
theorem c3_substitution_replaces_all :
    (∀ vals n p r, substVars vals n p = SubstRes.ok r →
       ∀ t, t ∈ [bMAJ, vMAJ, bMIN, vMIN, bMIC, vMIC, bVER, vVER] → ¬ t <:+: r) ∧
    substVars (mkOValues (some "3.11.2".data)) 3
        "pkg-${VERSION_MAJOR}.${VERSION_MINOR}.tar.gz".data
      = SubstRes.ok "pkg-3.11.tar.gz".data := by
  constructor
  · intro vals n p r h t ht
    have hno := substVars_ok_no_token vals n p r h
    simp only [List.mem_cons, List.not_mem_nil, or_false] at ht
    rcases ht with rfl | rfl | rfl | rfl | rfl | rfl | rfl | rfl
    · exact hno (bMAJ, vals.version_major) (by simp [tokenTable])
    · exact hno (vMAJ, vals.version_major) (by simp [tokenTable])
    · exact hno (bMIN, vals.version_minor) (by simp [tokenTable])
    · exact hno (vMIN, vals.version_minor) (by simp [tokenTable])
    · exact hno (bMIC, vals.version_micro) (by simp [tokenTable])
    · exact hno (vMIC, vals.version_micro) (by simp [tokenTable])
    · exact hno (bVER, vals.version) (by simp [tokenTable])
    · exact hno (vVER, vals.version) (by simp [tokenTable])
  · decide

/-- C3 witness: the general half applied to the concrete resolution: the
result `"pkg-3.11.tar.gz"` contains no spelling of any variable. -/
theorem c3_witness :
    ¬ vVER <:+: "pkg-3.11.tar.gz".data := by
  exact c3_substitution_replaces_all.1 (mkOValues (some "3.11.2".data)) 3
    "pkg-${VERSION_MAJOR}.${VERSION_MINOR}.tar.gz".data "pkg-3.11.tar.gz".data
    c3_substitution_replaces_all.2 vVER (by simp)

/-- C7 counterexample: a recorded but empty tarball pattern (a
`tarball=` line with empty value in `checksums.ini`) is falsy in Python, so
`tarball_filename` returns `None` even though a pattern is recorded —
refuting the claimed "returns None exactly when no tarball pattern is
recorded". -/
theorem c7_counterexample :
    tarball_filename (mkOValues (some "1".data)) (some []) 1 = TarballRes.none ∧
    (some ([] : Str)) ≠ (Option.none : Option Str) := by
  exact ⟨rfl, by simp⟩

/-- C7 (amended): `tarball_filename` returns `None` exactly when the
pattern is absent or empty, and returns the fully substituted pattern
whenever the pattern is a nonempty recorded string and the substitution
loop returns normally; likewise `tarball_upstream_url` for the URL
pattern. -/
theorem c7_tarball_resolution (vals : OValues) (pat : Option Str) (fuel : Nat) :
    (tarball_filename vals pat fuel = TarballRes.none ↔
      pat = Option.none ∨ pat = some []) ∧
    (∀ p r, pat = some p → p ≠ [] → substVars vals fuel p = SubstRes.ok r →
      tarball_filename vals pat fuel = TarballRes.str r) ∧
    (tarball_upstream_url vals pat fuel = TarballRes.none ↔
      pat = Option.none ∨ pat = some []) ∧
    (∀ p r, pat = some p → p ≠ [] → substVars vals fuel p = SubstRes.ok r →
      tarball_upstream_url vals pat fuel = TarballRes.str r) := by
  refine ⟨?_, ?_, ?_, ?_⟩
  · cases pat with
    | none => simp [tarball_filename]
    | some p =>
      by_cases hp : p = []
      · subst hp
        simp [tarball_filename]
      · simp only [tarball_filename, if_neg hp]
        cases substVars vals fuel p <;> simp [hp]
  · intro p r hpat hp hok
    subst hpat
    simp only [tarball_filename, if_neg hp, hok]
  · cases pat with
    | none => simp [tarball_upstream_url]
    | some p =>
      by_cases hp : p = []
      · subst hp
        simp [tarball_upstream_url]
      · simp only [tarball_upstream_url, if_neg hp]
        cases substVars vals fuel p <;> simp [hp]
  · intro p r hpat hp hok
    subst hpat
    simp only [tarball_upstream_url, if_neg hp, hok]

/-- C7 witness: with version `"1.2"` and pattern `"a-VERSION"` the
resolved tarball filename is the string `"a-1.2"`, and an absent pattern
yields `None`. -/
theorem c7_witness :
    tarball_filename (mkOValues (some "1.2".data)) (some ("a-".data ++ vVER)) 2
      = TarballRes.str "a-1.2".data ∧
    tarball_upstream_url (mkOValues (some "1.2".data)) Option.none 2
      = TarballRes.none := by
  constructor
  · exact (c7_tarball_resolution (mkOValues (some "1.2".data))
      (some ("a-".data ++ vVER)) 2).2.1 ("a-".data ++ vVER) "a-1.2".data rfl
      (by decide) (by decide)
  · exact (c7_tarball_resolution (mkOValues (some "1.2".data))
      Option.none 2).2.2.1.mpr (Or.inl rfl)

/-! ### Non-overlap of distinct token spellings, for the C4 invariant -/

theorem infix_iff_drop (u s : Str) : u <:+: s ↔ ∃ i, u <+: s.drop i := by
  constructor
  · rintro ⟨x, y, hxy⟩
    refine ⟨x.length, ?_⟩
    rw [← hxy, List.append_assoc, List.drop_left]
    exact List.prefix_append u y
  · rintro ⟨i, hi⟩
    exact hi.isInfix.trans (List.drop_suffix i s).isInfix

/-- Two strings that can never overlap in any common superstring: neither
is a prefix of the other, no nonempty proper suffix of one is a prefix of
the other, and neither occurs properly inside the other. -/
@[reducible] def NoOverlap (u t : Str) : Prop :=
  ¬ (u <+: t) ∧ ¬ (t <+: u) ∧
  (∀ k, k < u.length → 0 < k → ¬ (u.drop k <+: t) ∧ ¬ (t <+: u.drop k)) ∧
  (∀ d, d < t.length → 0 < d → ¬ (u <+: t.drop d) ∧ ¬ (t.drop d <+: u))

/-- An occurrence of `u` in `a ++ t ++ b` lies entirely inside `a` or
entirely inside `b` when `u` cannot overlap `t`. -/
theorem infix_append_or (u t a b : Str) (hu : u ≠ []) (hno : NoOverlap u t)
    (h : u <:+: a ++ t ++ b) : u <:+: a ∨ u <:+: b := by
  obtain ⟨i, hi⟩ := (infix_iff_drop u (a ++ t ++ b)).mp h
  by_cases h1 : i + u.length ≤ a.length
  · left
    have hia : i ≤ a.length := by
      have := List.length_pos.mpr hu
      omega
    rw [List.append_assoc, List.drop_append_of_le_length hia] at hi
    have hlen : u.length ≤ (a.drop i).length := by
      rw [List.length_drop]
      omega
    exact (infix_iff_drop u a).mpr ⟨i, (prefix_append_iff_short hlen).mp hi⟩
  · by_cases h2 : a.length + t.length ≤ i
    · right
      rw [List.drop_append_eq_append_drop,
        List.drop_eq_nil_of_le (by rw [List.length_append]; omega),
        List.nil_append, List.length_append] at hi
      exact (infix_iff_drop u b).mpr ⟨i - (a.length + t.length), hi⟩
    · exfalso
      push_neg at h1 h2
      by_cases h3 : i ≤ a.length
      · rw [List.append_assoc, List.drop_append_of_le_length h3] at hi
        have hklen : (a.drop i).length < u.length := by
          rw [List.length_drop]
          omega
        obtain ⟨hxp, hyp⟩ := (prefix_append_split hklen).mp hi
        rw [List.length_drop] at hyp
        by_cases hk0 : a.length - i = 0
        · rw [hk0, List.drop_zero] at hyp
          by_cases hut : u.length ≤ t.length
          · exact hno.1 ((prefix_append_iff_short hut).mp hyp)
          · exact hno.2.1 ((prefix_append_split (by omega)).mp hyp).1
        · have hku : a.length - i < u.length := by omega
          by_cases hyt : (u.drop (a.length - i)).length ≤ t.length
          · exact (hno.2.2.1 (a.length - i) hku (by omega)).1
              ((prefix_append_iff_short hyt).mp hyp)
          · exact (hno.2.2.1 (a.length - i) hku (by omega)).2
              ((prefix_append_split (by omega)).mp hyp).1
      · push_neg at h3
        have hd1 : 0 < i - a.length := by omega
        have hd2 : i - a.length < t.length := by omega
        have hle : i - a.length ≤ t.length := by omega
        have hdrop : (a ++ t ++ b).drop i = t.drop (i - a.length) ++ b := by
          rw [List.append_assoc, List.drop_append_eq_append_drop,
            List.drop_eq_nil_of_le (by omega), List.nil_append,
            List.drop_append_eq_append_drop, Nat.sub_eq_zero_of_le hle,
            List.drop_zero]
        rw [hdrop] at hi
        by_cases hdt : u.length ≤ (t.drop (i - a.length)).length
        · exact (hno.2.2.2 (i - a.length) hd2 hd1).1
            ((prefix_append_iff_short hdt).mp hi)
        · exact (hno.2.2.2 (i - a.length) hd2 hd1).2
            ((prefix_append_split (by omega)).mp hi).1

theorem noOverlap_mic :
    NoOverlap vMIC bMAJ ∧ NoOverlap vMIC vMAJ ∧
    NoOverlap vMIC bMIN ∧ NoOverlap vMIC vMIN :=
  ⟨by decide, by decide, by decide, by decide⟩

/-- Replacing an occurrence of a spelling that cannot overlap
`VERSION_MICRO` preserves the presence of `VERSION_MICRO`. -/
theorem mic_preserved (t v p : Str) (ht : t ≠ []) (hno : NoOverlap vMIC t)
    (hmic : vMIC <:+: p) (hinf : t <:+: p) :
    vMIC <:+: replaceFirst t v p := by
  obtain ⟨a, b, hs, hr⟩ := replaceFirst_decomp t v p ht hinf
  rw [hr]
  rw [hs] at hmic
  rcases infix_append_or vMIC t a b (by decide) hno hmic with hA | hB
  · exact hA.trans ⟨[], v ++ b, by simp⟩
  · exact hB.trans ⟨a ++ v, [], by simp⟩

/-- Value provider of a package with version `"7.0"`: the major and minor
components exist, the micro component raises `IndexError` (`none`). -/
def vals70 : OValues := mkOValues (some "7.0".data)

theorem substOnce70_cases (p : Str) (hmic : vMIC <:+: p) :
    substOnce vals70 p = none ∨
    ∃ t v, t ≠ [] ∧ GoodVal v ∧ SpellingOK t ∧ NoOverlap vMIC t ∧ t <:+: p ∧
      substOnce vals70 p = some (replaceFirst t v p, true) := by
  have h7 : vals70.version_major = some "7".data := rfl
  have hmin : vals70.version_minor = some "0".data := rfl
  have hnone : vals70.version_micro = none := rfl
  unfold substOnce tokenTable
  by_cases h1 : bMAJ <:+: p
  · right
    refine ⟨bMAJ, "7".data, by decide, by decide, spellings_ok.1, noOverlap_mic.1, h1, ?_⟩
    simp only [substOnceAux, if_pos h1, h7]
    rfl
  · by_cases h2 : vMAJ <:+: p
    · right
      refine ⟨vMAJ, "7".data, by decide, by decide, spellings_ok.2.1,
        noOverlap_mic.2.1, h2, ?_⟩
      simp only [substOnceAux, if_neg h1, if_pos h2, h7]
      rfl
    · by_cases h3 : bMIN <:+: p
      · right
        refine ⟨bMIN, "0".data, by decide, by decide, spellings_ok.2.2.1,
          noOverlap_mic.2.2.1, h3, ?_⟩
        simp only [substOnceAux, if_neg h1, if_neg h2, if_pos h3, hmin]
        rfl
      · by_cases h4 : vMIN <:+: p
        · right
          refine ⟨vMIN, "0".data, by decide, by decide, spellings_ok.2.2.2.1,
            noOverlap_mic.2.2.2, h4, ?_⟩
          simp only [substOnceAux, if_neg h1, if_neg h2, if_neg h3, if_pos h4, hmin]
          rfl
        · by_cases h5 : bMIC <:+: p
          · left
            simp only [substOnceAux, if_neg h1, if_neg h2, if_neg h3, if_neg h4,
              if_pos h5, hnone]
            rfl
          · left
            simp only [substOnceAux, if_neg h1, if_neg h2, if_neg h3, if_neg h4,
              if_neg h5, if_pos hmic, hnone]
            rfl

theorem substVars70_never_ok :
    ∀ n p r, vMIC <:+: p → substVars vals70 n p ≠ SubstRes.ok r := by
  intro n
  induction n with
  | zero =>
    intro p r _ h
    exact SubstRes.noConfusion h
  | succ m ih =>
    intro p r hmic h
    rcases substOnce70_cases p hmic with hE | ⟨t, v, htne, hgv, hok, hno, hinf, hE⟩
    · simp only [substVars, hE] at h
      exact SubstRes.noConfusion h
    · simp only [substVars, hE] at h
      exact ih (replaceFirst t v p) r (mic_preserved t v p htne hno hmic hinf) h

theorem substVars70_exn :
    ∀ n p, vMIC <:+: p → occCount vVER p ≤ n + 1 →
      substVars vals70 (n + 1) p = SubstRes.exn := by
  intro n
  induction n with
  | zero =>
    intro p hmic hocc
    rcases substOnce70_cases p hmic with hE | ⟨t, v, htne, hgv, hok, hno, hinf, hE⟩
    · simp only [substVars, hE]
    · exfalso
      have hdec := occCount_replaceFirst t v p hok hgv hinf
      have hmic2 : vMIC <:+: replaceFirst t v p := mic_preserved t v p htne hno hmic hinf
      have hmark : vVER <:+: replaceFirst t v p :=
        (by decide : vVER <:+: vMIC).trans hmic2
      have := (occCount_pos_iff vVER (by decide) _).mpr hmark
      omega
  | succ m ih =>
    intro p hmic hocc
    rcases substOnce70_cases p hmic with hE | ⟨t, v, htne, hgv, hok, hno, hinf, hE⟩
    · simp only [substVars, hE]
    · simp only [substVars, hE]
      have hdec := occCount_replaceFirst t v p hok hgv hinf
      exact ih (replaceFirst t v p) (mic_preserved t v p htne hno hmic hinf) (by omega)

/-- C4: a version-component accessor fails with a lookup error (`none`,
modelling the `IndexError` of `split('.')[i]`) whenever the version has
fewer dot-separated components than the accessor needs — in particular
`version_micro` on `"7.0"` — and consequently, with version `"7.0"`,
resolving any template containing `VERSION_MICRO` never returns a string:
for every fuel the loop either raises or is still running, and with
sufficient fuel it raises the lookup error. -/
theorem c4_missing_component_fails :
    (∀ v : Str, (v.splitOn '.').length ≤ 2 → version_micro v = none) ∧
    (∀ v : Str, (v.splitOn '.').length ≤ 1 → version_minor v = none) ∧
    version_micro "7.0".data = none ∧
    (∀ n p r, vMIC <:+: p → substVars vals70 n p ≠ SubstRes.ok r) ∧
    (∀ p, vMIC <:+: p → substVars vals70 (occCount vVER p + 1) p = SubstRes.exn) := by
  refine ⟨?_, ?_, rfl, substVars70_never_ok, ?_⟩
  · intro v h
    exact List.getElem?_eq_none h
  · intro v h
    exact List.getElem?_eq_none h
  · intro p hmic
    exact substVars70_exn (occCount vVER p) p hmic (Nat.le_succ _)

/-- C4 witness: with version `"7.0"`, the micro accessor fails and the
template `"x-${VERSION_MICRO}"` resolves to the lookup error, not to a
string. -/
theorem c4_witness :
    version_micro "7.0".data = none ∧
    substVars vals70 5 "x-${VERSION_MICRO}".data ≠ SubstRes.ok [] ∧
    substVars vals70 (occCount vVER "x-${VERSION_MICRO}".data + 1)
      "x-${VERSION_MICRO}".data = SubstRes.exn := by
  exact ⟨c4_missing_component_fails.2.2.1,
    c4_missing_component_fails.2.2.2.1 5 "x-${VERSION_MICRO}".data [] (by decide),
    c4_missing_component_fails.2.2.2.2 "x-${VERSION_MICRO}".data (by decide)⟩

end SagePkg
